import Mathlib

/-!
Verification development for the ripsrc repository.

The file embeds, in Lean, the control flow of the public facade
(function Rip and RipSlice in ripsrc/rip.go), the directory discovery of
the command wrapper (runOnDirs and dirContainsDir in cmd/ripcmd), and a
model of the subsystems that the facade wires together (gitexec.Prepare,
parentsgraph, branches, commitmeta, the history3 engine and the code-info
decoration).  The subsystems are not part of the sources of this
repository snapshot, so their behaviour is modelled from the
specification; the facade and the discovery code are translated from the
sources directly.  Stateful channel-based code is embedded as explicit
sequential state passing: a run of Rip is a list of channel events
(emissions and the closing of the sink) together with an outcome.
-/

namespace Ripsrc

/-- CommitStatus mirrors commitmeta.CommitStatus with the three constants
re-exported by ripsrc/rip.go (Added, Modified, Removed). -/
inductive CommitStatus where
  | added
  | modified
  | removed
deriving DecidableEq

/-- BlameLine mirrors the BlameLine struct of ripsrc/rip.go.  The Date
field is an epoch instant modelled as an integer. -/
structure BlameLine where
  Name : String
  Email : String
  Date : Int
  Comment : Bool
  Code : Bool
  Blank : Bool
deriving DecidableEq

/-- Commit carries the fields of the commit record that the claims
inspect: the sha and the branch attribution (the fields SHA and Branches
used by the end-to-end tests). -/
structure Commit where
  SHA : String
  Branches : List String
deriving DecidableEq

/-- BlameResult mirrors the claim-relevant projection of the BlameResult
struct of ripsrc/rip.go: the decorated commit, the filename, the blame
lines and the per-file commit status. -/
structure BlameResult where
  Commit : Commit
  Filename : String
  Lines : List BlameLine
  Status : CommitStatus
deriving DecidableEq

/-- RipOpts mirrors the RipOpts struct of ripsrc/rip.go (the Logger field
is omitted: it is an output sink with no influence on the results). -/
structure RipOpts where
  CheckpointsDir : String := ""
  NoStrictResume : Bool := false
  CommitFromIncl : String := ""
  AllBranches : Bool := false
deriving DecidableEq

/-- Modelled from the spec: one file entry of a per-commit result of the
history3 engine, carrying the path, the per-file status from the commit
header, and the authorship lines the engine computed for the file at this
commit. -/
structure ProcFile where
  Filename : String
  Status : CommitStatus
  Blame : List BlameLine
deriving DecidableEq

/-- Modelled from the spec: one per-commit result of the history3 engine
(process.Result), carrying the commit sha and the files touched by the
commit in the order listed by the tool. -/
structure ProcResult where
  Commit : String
  Files : List ProcFile
deriving DecidableEq

/-- Parents lookup in a graph dump given as an association list from a
commit sha to its ordered parent list (first parent first). -/
def lookupParents (g : List (String × List String)) (sha : String) : List String :=
  match g.find? (fun e => e.1 == sha) with
  | some e => e.2
  | none => []

/-- Modelled from the spec: the first-parent chain of a commit, the spine
obtained by always following the first parent, cut off by fuel. -/
def fpChain (g : List (String × List String)) : Nat → String → List String
  | 0, s => [s]
  | fuel + 1, s =>
    match lookupParents g s with
    | [] => [s]
    | p :: _ => s :: fpChain g fuel p

/-- Modelled from the spec: whether b lies on the first-parent chain of a
(fuel set to the size of the graph dump, enough for an acyclic graph). -/
def fpReaches (g : List (String × List String)) (a b : String) : Bool :=
  (fpChain g g.length a).contains b

/-- Reachability along all parent edges, cut off by fuel. -/
def reaches (g : List (String × List String)) : Nat → String → String → Bool
  | 0, a, b => a == b
  | fuel + 1, a, b => a == b || (lookupParents g a).any (fun p => reaches g fuel p b)

/-- Modelled from the spec: a tip owns its branch name unless the tip is a
first-parent-reachable ancestor of another tip with a lexicographically
smaller name. -/
def ownsTip (g : List (String × List String)) (tips : List (String × String))
    (b t : String) : Bool :=
  !(tips.any (fun bt => bt.1 != b && compare bt.1 b == Ordering.lt && fpReaches g bt.2 t))

/-- Modelled from the spec: branch attribution.  A commit is attributed to
every owning tip whose first-parent chain passes through it; names are
propagated along first-parent edges only.  The tips list is assumed to be
sorted by branch name, as listed by the tool. -/
def branchesOf (g : List (String × List String)) (tips : List (String × String))
    (sha : String) : List String :=
  (tips.filter (fun bt => ownsTip g tips bt.1 bt.2 && fpReaches g bt.2 sha)).map
    (fun bt => bt.1)

/-- Environment of one Rip invocation: the outcomes of the subsystems the
facade calls, modelled from the spec since their code is outside this
snapshot.  The stream field is the sequence of per-commit engine results
delivered before the processor run returned, and decorateErr gives the
failure, when any, of the code-info decoration of one engine result. -/
structure Env where
  hasHead : Bool
  prepareErr : Option String
  graphReadErr : Option String
  branchesRunErr : Option String
  commitInfoErr : Option String
  graph : List (String × List String)
  tips : List (String × String)
  stream : List ProcResult
  runErr : Option String
  decorateErr : ProcResult → Option String

/-- ErrNoHeadCommit mirrors the error value declared in ripsrc/rip.go. -/
def ErrNoHeadCommit : String := "can't get valid output from git rev-parse HEAD"

/-- Modelled from the spec: gitexec.Prepare fails with the no-head error
when the repository has no resolvable head, and otherwise behaves as the
environment dictates. -/
def prepareResult (env : Env) : Option String :=
  if env.hasHead then env.prepareErr else some ErrNoHeadCommit

/-- Modelled from the spec: the branch decoration attached to a commit by
the commit-info stage.  When AllBranches is off the branches stage never
runs and the attribution is empty. -/
def decorateBranches (env : Env) (opts : RipOpts) (sha : String) : List String :=
  if opts.AllBranches then branchesOf env.graph env.tips sha else []

/-- Modelled from the spec: the emission for one file of one commit.  A
Removed file is still emitted, with an empty lines list; any other status
carries the authorship computed by the engine. -/
def emitFile (c : Commit) (f : ProcFile) : BlameResult :=
  { Commit := c, Filename := f.Filename, Status := f.Status,
    Lines := if f.Status = CommitStatus.removed then [] else f.Blame }

/-- The commit record carried by every emission of one engine result:
the sha of the result together with its branch decoration. -/
def decoratedCommit (env : Env) (opts : RipOpts) (sha : String) : Commit :=
  { SHA := sha, Branches := decorateBranches env opts sha }

/-- Modelled from the spec: codeInfoFiles decorates one engine result into
the list of BlameResult records, one per file in the order listed by the
tool, all carrying the same decorated commit. -/
def codeInfoFiles (env : Env) (opts : RipOpts) (pc : ProcResult) : List BlameResult :=
  pc.Files.map (emitFile (decoratedCommit env opts pc.Commit))

/-- One channel event of a Rip invocation: an emission to the sink or the
closing of the sink. -/
inductive Event where
  | emit (r : BlameResult)
  | close
deriving DecidableEq

/-- Outcome of a Rip invocation: a normal nil return, a normal error
return, or a runtime panic (rip.go lines 140 and 149 panic instead of
returning). -/
inductive Outcome where
  | ok
  | err (e : String)
  | panicked (e : String)
deriving DecidableEq

/-- Whether an outcome is a normal return (nil or an error value), as
opposed to a panic. -/
def isNormalReturn : Outcome → Bool
  | Outcome.ok => true
  | Outcome.err _ => true
  | Outcome.panicked _ => false

/-- Predicate picking the close event. -/
def isClose : Event → Bool
  | Event.close => true
  | Event.emit _ => false

/-- The forwarding goroutine of Rip (rip.go lines 145 to 156),
sequentialized: each engine result is decorated by codeInfoFiles and its
records forwarded to the sink in order; a decoration error aborts the loop
(the goroutine panics), keeping the records already forwarded. -/
def forwardLoop (env : Env) (opts : RipOpts) : List ProcResult → List BlameResult × Option String
  | [] => ([], none)
  | pc :: rest =>
    match env.decorateErr pc with
    | some e => ([], some e)
    | none =>
      let p := forwardLoop env opts rest
      (codeInfoFiles env opts pc ++ p.1, p.2)

/-- The control flow of Rip (rip.go lines 100 to 177) embedded
sequentially.  The result is the list of sink events in order together
with the outcome.  The deferred close of the sink runs on every normal
return and on the panic raised inside Rip itself (the commit-info panic at
line 140); a panic of the forwarding goroutine (line 149) brings the
process down without running the deferred close. -/
def rip (env : Env) (opts? : Option RipOpts) : List Event × Outcome :=
  match prepareResult env with
  | some e => ([Event.close], Outcome.err e)
  | none =>
    match env.graphReadErr with
    | some e => ([Event.close], Outcome.err e)
    | none =>
      match (if (opts?.getD {}).AllBranches then env.branchesRunErr else none) with
      | some e => ([Event.close], Outcome.err e)
      | none =>
        match env.commitInfoErr with
        | some e => ([Event.close], Outcome.panicked e)
        | none =>
          match forwardLoop env (opts?.getD {}) env.stream with
          | (rs, some e) => (rs.map Event.emit, Outcome.panicked e)
          | (rs, none) =>
            match env.runErr with
            | some e => (rs.map Event.emit ++ [Event.close], Outcome.err e)
            | none => (rs.map Event.emit ++ [Event.close], Outcome.ok)

/-- The emissions carried by a list of sink events. -/
def emissions : List Event → List BlameResult
  | [] => []
  | Event.emit r :: rest => r :: emissions rest
  | Event.close :: rest => emissions rest

/-- The ordered sequence of records delivered to the sink by one Rip
invocation. -/
def sinkResults (env : Env) (opts? : Option RipOpts) : List BlameResult :=
  emissions (rip env opts?).1

/-- The collector goroutine of RipSlice (rip.go lines 182 to 187),
sequentialized: it appends every record received from the channel until
the channel is closed. -/
def collectUntilClose : List Event → List BlameResult
  | [] => []
  | Event.close :: _ => []
  | Event.emit r :: rest => r :: collectUntilClose rest

/-- RipSlice (rip.go lines 179 to 191): runs Rip against a fresh channel,
collects everything delivered until the channel closes, and returns the
collected slice together with the error returned by Rip. -/
def ripSlice (env : Env) (opts? : Option RipOpts) : List BlameResult × Outcome :=
  (collectUntilClose (rip env opts?).1, (rip env opts?).2)

/-- An error-free environment: the repository has a head and every
subsystem call succeeds. -/
def cleanEnv (env : Env) : Prop :=
  env.hasHead = true ∧ env.prepareErr = none ∧ env.graphReadErr = none ∧
  env.branchesRunErr = none ∧ env.commitInfoErr = none ∧ env.runErr = none ∧
  (∀ pc, env.decorateErr pc = none)

/-- Consecutive duplicate compression of a sha sequence. -/
def dedupConsec : List String → List String
  | [] => []
  | [a] => [a]
  | a :: b :: rest =>
    if a == b then dedupConsec (b :: rest) else a :: dedupConsec (b :: rest)

/-- A directory node of the filesystem as seen by the discovery code of
the command wrapper: whether it has a subdirectory named .git, whether its
name carries the .git extension, whether it has a subdirectory named
objects, and its immediate subdirectories.  The two Boolean containment
flags embed dirContainsDir, which answers true exactly when the named
child exists and is a directory. -/
inductive Dir where
  | mk (hasDotGitDir : Bool) (extIsGit : Bool) (hasObjectsDir : Bool) (subdirs : List Dir)

/-- Whether the directory has a subdirectory named .git. -/
def Dir.hasDotGitDir : Dir → Bool
  | Dir.mk h _ _ _ => h

/-- Whether the name of the directory ends in the .git extension. -/
def Dir.extIsGit : Dir → Bool
  | Dir.mk _ e _ _ => e

/-- Whether the directory has a subdirectory named objects. -/
def Dir.hasObjectsDir : Dir → Bool
  | Dir.mk _ _ o _ => o

/-- The immediate subdirectories of the directory. -/
def Dir.subdirs : Dir → List Dir
  | Dir.mk _ _ _ s => s

/-- The repository test applied by runOnDirs: a working repository has a
.git subdirectory, a bare repository has a name ending in .git and an
objects subdirectory. -/
def isRepoDir (d : Dir) : Bool :=
  d.hasDotGitDir || (d.extIsGit && d.hasObjectsDir)

/-- runOnDirs from the command wrapper, on an error-free filesystem: the
directory is processed as a repository when it has a .git subdirectory,
else when its name ends in .git and it has an objects subdirectory;
otherwise, when recursion levels remain, the immediate subdirectories are
visited with one level fewer.  Returns the directories processed as
repositories, in visit order.  Run enters with one recursion level. -/
def runOnDirs (d : Dir) (recurseLevels : Nat) : List Dir :=
  if d.hasDotGitDir then [d]
  else if d.extIsGit && d.hasObjectsDir then [d]
  else
    match recurseLevels with
    | 0 => []
    | l + 1 => (d.subdirs.map (fun s => runOnDirs s l)).flatten
termination_by recurseLevels

/-- Sha of the root commit of the multiple-branches fixture. -/
def shaRoot : String := "6405a003b50894ad5bcfb0252eff8d4719ee15ef"

/-- Sha of the tip of master in the multiple-branches fixture. -/
def shaTipMaster : String := "8fd2147e148b5875c9765a7c1a3e245f8f6387b1"

/-- Sha of the tip of branch b in the multiple-branches fixture. -/
def shaTipB : String := "c81b9e3799b0ee78b2db6455d7e723c32cebd6f3"

/-- Graph dump of the multiple-branches fixture: a root commit and two
children, each the tip of one branch. -/
def fixtureGraph : List (String × List String) :=
  [(shaRoot, []), (shaTipMaster, [shaRoot]), (shaTipB, [shaRoot])]

/-- Branch tips of the multiple-branches fixture, sorted by name. -/
def fixtureTips : List (String × String) :=
  [("b", shaTipB), ("master", shaTipMaster)]

/-- A one-file engine payload used by the concrete environments. -/
def fileA : ProcFile :=
  { Filename := "a.txt", Status := CommitStatus.added, Blame := [] }

/-- Engine result stream of the multiple-branches fixture, in topological
order as produced by the tool: root first, then the master tip, then the
tip of b. -/
def fixtureStream : List ProcResult :=
  [{ Commit := shaRoot, Files := [fileA] },
   { Commit := shaTipMaster, Files := [fileA] },
   { Commit := shaTipB, Files := [fileA] }]

/-- Error-free environment for the multiple-branches fixture. -/
def fixtureEnv : Env :=
  { hasHead := true, prepareErr := none, graphReadErr := none,
    branchesRunErr := none, commitInfoErr := none,
    graph := fixtureGraph, tips := fixtureTips, stream := fixtureStream,
    runErr := none, decorateErr := fun _ => none }

/-- Graph dump of a repository whose topic branch was merged into master
and then deleted: the second parent cc of the merge mm is reachable from
the master tip, but not along first-parent edges. -/
def mergeGraph : List (String × List String) :=
  [("aa", []), ("bb", ["aa"]), ("cc", ["aa"]), ("mm", ["bb", "cc"])]

/-- The single surviving tip of the merged-and-deleted-branch
repository. -/
def mergeTips : List (String × String) := [("master", "mm")]

/-- Engine result stream of the merged-and-deleted-branch repository in
topological order. -/
def mergeStream : List ProcResult :=
  [{ Commit := "aa", Files := [fileA] },
   { Commit := "bb", Files := [fileA] },
   { Commit := "cc", Files := [fileA] },
   { Commit := "mm", Files := [fileA] }]

/-- Error-free environment for the merged-and-deleted-branch
repository. -/
def mergeEnv : Env :=
  { hasHead := true, prepareErr := none, graphReadErr := none,
    branchesRunErr := none, commitInfoErr := none,
    graph := mergeGraph, tips := mergeTips, stream := mergeStream,
    runErr := none, decorateErr := fun _ => none }

/-- The options record enabling branch attribution. -/
def optsAllBranches : RipOpts := { AllBranches := true }

/-- Emissions distribute over appending event traces. -/
theorem emissions_append (a b : List Event) :
    emissions (a ++ b) = emissions a ++ emissions b := by
  induction a with
  | nil => rfl
  | cons hd tl ih => cases hd <;> simp [emissions, ih]

/-- A trace made only of emit events carries exactly its records. -/
theorem emissions_map_emit (l : List BlameResult) :
    emissions (l.map Event.emit) = l := by
  induction l with
  | nil => rfl
  | cons hd tl ih => simp [emissions, ih]

/-- When no decoration error occurs the forwarding loop forwards the
decoration of every engine result, in stream order. -/
theorem forwardLoop_clean (env : Env) (opts : RipOpts)
    (h : ∀ pc, env.decorateErr pc = none) (l : List ProcResult) :
    forwardLoop env opts l = (l.flatMap (codeInfoFiles env opts), none) := by
  induction l with
  | nil => rfl
  | cons hd tl ih => simp [forwardLoop, h hd, ih]

/-- On an error-free environment Rip forwards every decorated record in
stream order, closes the sink last and returns nil. -/
theorem rip_clean (env : Env) (opts? : Option RipOpts) (h : cleanEnv env) :
    rip env opts? =
      ((env.stream.flatMap (codeInfoFiles env (opts?.getD {}))).map Event.emit ++
        [Event.close], Outcome.ok) := by
  obtain ⟨h1, h2, h3, h4, h5, h6, h7⟩ := h
  simp [rip, prepareResult, h1, h2, h3, h4, h5, h6,
    forwardLoop_clean env (opts?.getD {}) h7]

/-- On an error-free environment the sink receives exactly the decoration
of the stream, in order. -/
theorem sinkResults_clean (env : Env) (opts? : Option RipOpts) (h : cleanEnv env) :
    sinkResults env opts? = env.stream.flatMap (codeInfoFiles env (opts?.getD {})) := by
  simp [sinkResults, rip_clean env opts? h, emissions_append, emissions_map_emit,
    emissions]

/-- Every record decorated from one engine result carries the decorated
commit of that result and stems from one of its files. -/
theorem mem_codeInfoFiles (env : Env) (opts : RipOpts) (pc : ProcResult)
    (r : BlameResult) (h : r ∈ codeInfoFiles env opts pc) :
    r.Commit = decoratedCommit env opts pc.Commit ∧
    ∃ f ∈ pc.Files, r = emitFile (decoratedCommit env opts pc.Commit) f := by
  simp only [codeInfoFiles, List.mem_map] at h
  obtain ⟨f, hf, rfl⟩ := h
  exact ⟨rfl, f, hf, rfl⟩

/-- The sha carried by a record decorated from one engine result is the
sha of that result. -/
theorem codeInfoFiles_sha (env : Env) (opts : RipOpts) (pc : ProcResult)
    (r : BlameResult) (h : r ∈ codeInfoFiles env opts pc) :
    r.Commit.SHA = pc.Commit := by
  rw [(mem_codeInfoFiles env opts pc r h).1]
  rfl

/-- Every record forwarded by the loop is the decoration of some engine
result of the stream. -/
theorem mem_forwardLoop (env : Env) (opts : RipOpts) (l : List ProcResult)
    (r : BlameResult) (h : r ∈ (forwardLoop env opts l).1) :
    ∃ pc ∈ l, r ∈ codeInfoFiles env opts pc := by
  induction l with
  | nil => simp [forwardLoop] at h
  | cons hd tl ih =>
    rw [forwardLoop] at h
    cases hde : env.decorateErr hd with
    | some e => rw [hde] at h; simp at h
    | none =>
      rw [hde] at h
      simp only [List.mem_append] at h
      rcases h with h | h
      · exact ⟨hd, List.mem_cons_self hd tl, h⟩
      · obtain ⟨pc, hpc, hr⟩ := ih h
        exact ⟨pc, List.mem_cons_of_mem hd hpc, hr⟩

/-- Every record delivered to the sink is the decoration of some engine
result of the stream. -/
theorem mem_sinkResults (env : Env) (opts? : Option RipOpts) (r : BlameResult)
    (h : r ∈ sinkResults env opts?) :
    ∃ pc ∈ env.stream, r ∈ codeInfoFiles env (opts?.getD {}) pc := by
  unfold sinkResults rip at h
  split at h
  · simp [emissions] at h
  · split at h
    · simp [emissions] at h
    · split at h
      · simp [emissions] at h
      · split at h
        · simp [emissions] at h
        · split at h
          next rs e heq =>
            rw [emissions_map_emit] at h
            have : r ∈ (forwardLoop env (opts?.getD {}) env.stream).1 := by
              rw [heq]; exact h
            exact mem_forwardLoop env (opts?.getD {}) env.stream r this
          next rs heq =>
            split at h <;>
              · rw [emissions_append, emissions_map_emit] at h
                simp [emissions] at h
                have : r ∈ (forwardLoop env (opts?.getD {}) env.stream).1 := by
                  rw [heq]; exact h
                exact mem_forwardLoop env (opts?.getD {}) env.stream r this

/-- Shape of a Rip run: either the trace is some emissions followed by the
single close of the sink and the outcome is a normal return, or the
outcome is a panic. -/
theorem rip_shape (env : Env) (opts? : Option RipOpts) :
    (∃ rs : List BlameResult,
      (rip env opts?).1 = rs.map Event.emit ++ [Event.close] ∧
      isNormalReturn (rip env opts?).2 = true) ∨
    (∃ e, (rip env opts?).2 = Outcome.panicked e) := by
  unfold rip
  split
  · exact Or.inl ⟨[], rfl, rfl⟩
  · split
    · exact Or.inl ⟨[], rfl, rfl⟩
    · split
      · exact Or.inl ⟨[], rfl, rfl⟩
      · split
        · exact Or.inr ⟨_, rfl⟩
        · split
          · exact Or.inr ⟨_, rfl⟩
          · split
            · exact Or.inl ⟨_, rfl, rfl⟩
            · exact Or.inl ⟨_, rfl, rfl⟩

/-- The collector stops at the close that follows a run of emissions. -/
theorem collectUntilClose_emit_close (l : List BlameResult) :
    collectUntilClose (l.map Event.emit ++ [Event.close]) = l := by
  induction l with
  | nil => rfl
  | cons hd tl ih => simp [collectUntilClose, ih]

/-- The collector drains a trace made only of emissions. -/
theorem collectUntilClose_map_emit (l : List BlameResult) :
    collectUntilClose (l.map Event.emit) = l := by
  induction l with
  | nil => rfl
  | cons hd tl ih => simp [collectUntilClose, ih]

/-- On every run the collector of RipSlice gathers exactly the records
Rip delivered to the sink. -/
theorem collect_eq_emissions (env : Env) (opts? : Option RipOpts) :
    collectUntilClose (rip env opts?).1 = emissions (rip env opts?).1 := by
  unfold rip
  split
  · rfl
  · split
    · rfl
    · split
      · rfl
      · split
        · rfl
        · split
          · rw [collectUntilClose_map_emit, emissions_map_emit]
          · split <;>
              · rw [collectUntilClose_emit_close, emissions_append,
                  emissions_map_emit]
                simp [emissions]

/-- Restricting the decorated stream to the records of one listed result
keeps exactly the decoration of that result, in order. -/
theorem filter_sha_flatMap (env : Env) (opts : RipOpts) (stream : List ProcResult)
    (pc : ProcResult) (hnd : (stream.map ProcResult.Commit).Nodup)
    (hmem : pc ∈ stream) :
    (stream.flatMap (codeInfoFiles env opts)).filter
      (fun r => r.Commit.SHA == pc.Commit) = codeInfoFiles env opts pc := by
  induction stream with
  | nil => cases hmem
  | cons hd tl ih =>
    rw [List.flatMap_cons, List.filter_append]
    rw [List.map_cons, List.nodup_cons] at hnd
    rcases List.mem_cons.mp hmem with rfl | hmem2
    · have h1 : (codeInfoFiles env opts pc).filter
          (fun r => r.Commit.SHA == pc.Commit) = codeInfoFiles env opts pc := by
        apply List.filter_eq_self.mpr
        intro r hr
        simp [codeInfoFiles_sha env opts pc r hr]
      have h2 : (tl.flatMap (codeInfoFiles env opts)).filter
          (fun r => r.Commit.SHA == pc.Commit) = [] := by
        apply List.filter_eq_nil_iff.mpr
        intro r hr
        obtain ⟨pc2, hpc2, hr2⟩ := List.mem_flatMap.mp hr
        have hsha := codeInfoFiles_sha env opts pc2 r hr2
        have : pc.Commit ≠ pc2.Commit := by
          intro he
          exact hnd.1 (he ▸ List.mem_map_of_mem ProcResult.Commit hpc2)
        simp [hsha]
        exact fun hcon => this hcon.symm
      rw [h1, h2, List.append_nil]
    · have hne : hd.Commit ≠ pc.Commit := by
        intro he
        exact hnd.1 (he ▸ List.mem_map_of_mem ProcResult.Commit hmem2)
      have h1 : (codeInfoFiles env opts hd).filter
          (fun r => r.Commit.SHA == pc.Commit) = [] := by
        apply List.filter_eq_nil_iff.mpr
        intro r hr
        simp [codeInfoFiles_sha env opts hd r hr]
        exact hne
      rw [h1, List.nil_append]
      exact ih hnd.2 hmem2

/-- Restricting the decoration of one result to one of its listed file
names keeps exactly the emission of that file. -/
theorem filter_filename_emit (c : Commit) (files : List ProcFile) (f : ProcFile)
    (hnd : (files.map ProcFile.Filename).Nodup) (hmem : f ∈ files) :
    (files.map (emitFile c)).filter
      (fun r => r.Filename == f.Filename) = [emitFile c f] := by
  induction files with
  | nil => cases hmem
  | cons hd tl ih =>
    rw [List.map_cons, List.nodup_cons] at hnd
    rcases List.mem_cons.mp hmem with rfl | hmem2
    · rw [List.map_cons, List.filter_cons_of_pos (by simp [emitFile])]
      have h2 : (tl.map (emitFile c)).filter
          (fun r => r.Filename == f.Filename) = [] := by
        apply List.filter_eq_nil_iff.mpr
        intro r hr
        obtain ⟨f2, hf2, rfl⟩ := List.mem_map.mp hr
        have : f2.Filename ≠ f.Filename := by
          intro he
          exact hnd.1 (he ▸ List.mem_map_of_mem ProcFile.Filename hf2)
        simp [emitFile]
        exact this
      rw [h2]
    · have hne : hd.Filename ≠ f.Filename := by
        intro he
        exact hnd.1 (he ▸ List.mem_map_of_mem ProcFile.Filename hmem2)
      rw [List.map_cons, List.filter_cons_of_neg (by simp [emitFile]; exact hne)]
      exact ih hnd.2 hmem2

/-- A leading run of one repeated sha compresses to a single copy. -/
theorem dedupConsec_replicate_append (n : Nat) (a : String) (l : List String)
    (hn : n ≠ 0) :
    dedupConsec (List.replicate n a ++ l) = dedupConsec (a :: l) := by
  induction n with
  | zero => cases hn rfl
  | succ m ih =>
    cases m with
    | zero => simp [List.replicate]
    | succ k =>
      rw [List.replicate_succ, List.cons_append, List.replicate_succ,
        List.cons_append, dedupConsec]
      simp only [beq_self_eq_true, if_true]
      rw [← List.cons_append, ← List.replicate_succ]
      exact ih (Nat.succ_ne_zero k)

/-- Compression keeps the head when the following sha differs. -/
theorem dedupConsec_cons_ne (a : String) (l : List String)
    (h : ∀ b, l.head? = some b → a ≠ b) :
    dedupConsec (a :: l) = a :: dedupConsec l := by
  cases l with
  | nil => rfl
  | cons b rest =>
    have hab : (a == b) = false := beq_eq_false_iff_ne.mpr (h b rfl)
    simp [dedupConsec, hab]

/-- The sha column of the decoration of one engine result is its sha,
repeated once per listed file. -/
theorem codeInfoFiles_sha_column (env : Env) (opts : RipOpts) (pc : ProcResult) :
    (codeInfoFiles env opts pc).map (fun r => r.Commit.SHA) =
      List.replicate pc.Files.length pc.Commit := by
  rw [codeInfoFiles, List.map_map]
  have : ((fun r : BlameResult => r.Commit.SHA) ∘
      emitFile (decoratedCommit env opts pc.Commit)) = fun _ => pc.Commit := by
    funext f
    rfl
  rw [this, List.map_const']

/-- With pairwise distinct shas the compressed sha column of the decorated
stream lists exactly the results that touch at least one file, in stream
order. -/
theorem dedup_shas (env : Env) (opts : RipOpts) (stream : List ProcResult)
    (hnd : (stream.map ProcResult.Commit).Nodup) :
    dedupConsec ((stream.flatMap (codeInfoFiles env opts)).map
      (fun r => r.Commit.SHA)) =
    (stream.filter (fun pc => !pc.Files.isEmpty)).map ProcResult.Commit := by
  induction stream with
  | nil => rfl
  | cons hd tl ih =>
    rw [List.map_cons, List.nodup_cons] at hnd
    rw [List.flatMap_cons, List.map_append, codeInfoFiles_sha_column]
    have hhead : ∀ b, ((tl.flatMap (codeInfoFiles env opts)).map
        (fun r => r.Commit.SHA)).head? = some b → hd.Commit ≠ b := by
      intro b hb hcon
      have hbmem := List.mem_of_mem_head? hb
      obtain ⟨r, hr, hrb⟩ := List.mem_map.mp hbmem
      obtain ⟨pc2, hpc2, hr2⟩ := List.mem_flatMap.mp hr
      have := codeInfoFiles_sha env opts pc2 r hr2
      exact hnd.1 (by
        rw [hcon, ← hrb, this]
        exact List.mem_map_of_mem ProcResult.Commit hpc2)
    cases hfe : hd.Files.isEmpty with
    | true =>
      have hlen : hd.Files.length = 0 := by
        cases hf : hd.Files with
        | nil => rfl
        | cons x xs => rw [hf] at hfe; simp [List.isEmpty] at hfe
      rw [hlen]
      simp only [List.replicate, List.nil_append]
      rw [List.filter_cons_of_neg (by simp [hfe])]
      exact ih hnd.2
    | false =>
      have hlen : hd.Files.length ≠ 0 := by
        cases hf : hd.Files with
        | nil => rw [hf] at hfe; simp [List.isEmpty] at hfe
        | cons x xs => simp [hf]
      rw [dedupConsec_replicate_append hd.Files.length hd.Commit _ hlen,
        dedupConsec_cons_ne hd.Commit _ hhead,
        List.filter_cons_of_pos (by simp [hfe]), List.map_cons]
      rw [ih hnd.2]

/-- The branch list carried by any record delivered to the sink is the
branch decoration of its own sha. -/
theorem sinkResults_branches (env : Env) (opts? : Option RipOpts) (r : BlameResult)
    (h : r ∈ sinkResults env opts?) :
    r.Commit.Branches = decorateBranches env (opts?.getD {}) r.Commit.SHA := by
  obtain ⟨pc, hpc, hr⟩ := mem_sinkResults env opts? r h
  rw [(mem_codeInfoFiles env _ pc r hr).1]
  rfl

/-- C6: on the multiple-branches fixture, run with AllBranches on, the
three commits receive the branch sets b and master, master alone, and b
alone, in the order the end-to-end test observes them. -/
theorem fixture_branch_attribution :
    (sinkResults fixtureEnv (some optsAllBranches)).map
      (fun r => (r.Commit.SHA, r.Commit.Branches)) =
    [(shaRoot, ["b", "master"]), (shaTipMaster, ["master"]), (shaTipB, ["b"])] := by
  decide

/-- C3 counterexample: in the merged-and-deleted-branch repository, run
with AllBranches on, the commit cc is reachable from the tip of master
yet its emitted record carries an empty branch list, because branch names
propagate along first-parent edges only and cc sits behind a second-parent
edge. -/
theorem branch_totality_counterexample :
    reaches mergeGraph 4 "mm" "cc" = true ∧
    ((sinkResults mergeEnv (some optsAllBranches)).map
      (fun r => (r.Commit.SHA, r.Commit.Branches))).contains ("cc", []) = true := by
  decide

/-- C3 amended: with AllBranches off (including the nil-opts default)
every emitted commit carries an empty branch list; with AllBranches on,
every emitted commit that lies on the first-parent chain of an owning
branch tip carries a non-empty branch list (commits reachable only
through later-parent edges may carry an empty one). -/
theorem branch_decoration_amended (env : Env) (opts? : Option RipOpts)
    (r : BlameResult) (hr : r ∈ sinkResults env opts?) :
    ((opts?.getD {}).AllBranches = false → r.Commit.Branches = []) ∧
    ((opts?.getD {}).AllBranches = true → ∀ b t, (b, t) ∈ env.tips →
      ownsTip env.graph env.tips b t = true →
      fpReaches env.graph t r.Commit.SHA = true → r.Commit.Branches ≠ []) := by
  have hbr := sinkResults_branches env opts? r hr
  constructor
  · intro hoff
    rw [hbr, decorateBranches, hoff]
    simp
  · intro hon b t htip hown hreach
    rw [hbr, decorateBranches, hon, if_pos rfl]
    have hbmem : b ∈ branchesOf env.graph env.tips r.Commit.SHA := by
      rw [branchesOf]
      exact List.mem_map_of_mem _
        (List.mem_filter.mpr ⟨htip, by rw [hown, hreach]; rfl⟩)
    exact List.ne_nil_of_mem hbmem

/-- Witness for the amended branch decoration claim: instantiated on the
multiple-branches fixture, where the record of the tip of branch b has a
non-empty branch list, and on the same fixture with branch attribution
off, where the same emission carries no branches. -/
theorem branch_decoration_amended_witness :
    ({ Commit := { SHA := shaTipB, Branches := ["b"] }, Filename := "a.txt",
       Lines := [], Status := CommitStatus.added } : BlameResult).Commit.Branches ≠ [] ∧
    ({ Commit := { SHA := shaTipB, Branches := [] }, Filename := "a.txt",
       Lines := [], Status := CommitStatus.added } : BlameResult).Commit.Branches = [] := by
  refine ⟨?_, ?_⟩
  · exact (branch_decoration_amended fixtureEnv (some optsAllBranches) _
      (by decide)).2 rfl "b" shaTipB (by decide) (by decide) (by decide)
  · exact (branch_decoration_amended fixtureEnv none _ (by decide)).1 rfl

/-- C7: when the repository has no resolvable head, Rip fails pre-flight
with the no-head error, the sink is closed with nothing emitted. -/
theorem rip_no_head_preflight (env : Env) (opts? : Option RipOpts)
    (h : env.hasHead = false) :
    rip env opts? = ([Event.close], Outcome.err ErrNoHeadCommit) ∧
    sinkResults env opts? = [] := by
  have hp : prepareResult env = some ErrNoHeadCommit := by
    rw [prepareResult, h]
    simp
  constructor
  · rw [rip, hp]
  · rw [sinkResults, rip, hp]
    rfl

/-- Witness for the pre-flight no-head claim, on the fixture environment
stripped of its head. -/
theorem rip_no_head_preflight_witness :
    rip { fixtureEnv with hasHead := false } none =
      ([Event.close], Outcome.err ErrNoHeadCommit) ∧
    sinkResults { fixtureEnv with hasHead := false } none = [] :=
  rip_no_head_preflight { fixtureEnv with hasHead := false } none rfl

/-- C4: on every run of Rip that returns normally, whether with nil or
with an error, the event trace of the sink contains exactly one close and
the close is its last event. -/
theorem rip_closes_sink_once (env : Env) (opts? : Option RipOpts)
    (h : isNormalReturn (rip env opts?).2 = true) :
    (rip env opts?).1.countP isClose = 1 ∧
    (rip env opts?).1.getLast? = some Event.close := by
  rcases rip_shape env opts? with ⟨rs, heq, _⟩ | ⟨e, heq⟩
  · rw [heq]
    constructor
    · rw [List.countP_append]
      have h0 : (rs.map Event.emit).countP isClose = 0 := by
        apply List.countP_eq_zero.mpr
        intro ev hev
        obtain ⟨r, _, rfl⟩ := List.mem_map.mp hev
        simp [isClose]
      rw [h0]
      rfl
    · rw [List.getLast?_concat]
  · rw [heq] at h
    simp [isNormalReturn] at h

/-- Witness for the sink-closing claim, on the error-free fixture run. -/
theorem rip_closes_sink_once_witness :
    (rip fixtureEnv none).1.countP isClose = 1 ∧
    (rip fixtureEnv none).1.getLast? = some Event.close :=
  rip_closes_sink_once fixtureEnv none (by decide)

/-- C10: RipSlice returns exactly the ordered sequence of records that Rip
delivers to its channel for the same arguments, paired with the same
outcome that Rip produces. -/
theorem ripSlice_refines_rip (env : Env) (opts? : Option RipOpts) :
    ripSlice env opts? = (sinkResults env opts?, (rip env opts?).2) := by
  rw [ripSlice, sinkResults, collect_eq_emissions]

/-- C2 counterexample: a failure of the commit-metadata stage is not
surfaced as the error returned by Rip; the invocation panics instead
(rip.go line 140). -/
theorem rip_error_return_counterexample :
    (rip { fixtureEnv with commitInfoErr := some "commit meta failed" } none).2 =
      Outcome.panicked "commit meta failed" ∧
    isNormalReturn
      (rip { fixtureEnv with commitInfoErr := some "commit meta failed" } none).2 =
      false := by
  decide

/-- C2 amended: errors from prepare, from the parents-graph read, from the
branch computation (when AllBranches is on) and from the processor run are
fatal and returned normally by Rip with the sink closed; an error from
commit-metadata retrieval is fatal by panic inside Rip, so the deferred
close still runs but no error is returned; an error from per-emission
decoration is fatal by panic inside the forwarding goroutine, which brings
the process down without closing the sink. -/
theorem rip_error_propagation_amended (env : Env) (opts? : Option RipOpts) :
    (∀ e, prepareResult env = some e →
      rip env opts? = ([Event.close], Outcome.err e)) ∧
    (∀ e, prepareResult env = none → env.graphReadErr = some e →
      rip env opts? = ([Event.close], Outcome.err e)) ∧
    (∀ e, prepareResult env = none → env.graphReadErr = none →
      (opts?.getD {}).AllBranches = true → env.branchesRunErr = some e →
      rip env opts? = ([Event.close], Outcome.err e)) ∧
    (∀ e, prepareResult env = none → env.graphReadErr = none →
      ((opts?.getD {}).AllBranches = true → env.branchesRunErr = none) →
      env.commitInfoErr = some e →
      rip env opts? = ([Event.close], Outcome.panicked e)) ∧
    (∀ rs e, prepareResult env = none → env.graphReadErr = none →
      ((opts?.getD {}).AllBranches = true → env.branchesRunErr = none) →
      env.commitInfoErr = none →
      forwardLoop env (opts?.getD {}) env.stream = (rs, some e) →
      rip env opts? = (rs.map Event.emit, Outcome.panicked e)) ∧
    (∀ rs e, prepareResult env = none → env.graphReadErr = none →
      ((opts?.getD {}).AllBranches = true → env.branchesRunErr = none) →
      env.commitInfoErr = none →
      forwardLoop env (opts?.getD {}) env.stream = (rs, none) →
      env.runErr = some e →
      rip env opts? = (rs.map Event.emit ++ [Event.close], Outcome.err e)) := by
  have hbr : ∀ hb : (opts?.getD {}).AllBranches = true → env.branchesRunErr = none,
      (if (opts?.getD {}).AllBranches then env.branchesRunErr else none) = none := by
    intro hb
    cases hab : (opts?.getD {}).AllBranches with
    | true => simp [hb hab]
    | false => simp
  refine ⟨?_, ?_, ?_, ?_, ?_, ?_⟩
  · intro e h1
    rw [rip, h1]
  · intro e h1 h2
    rw [rip, h1, h2]
  · intro e h1 h2 h3 h4
    rw [rip, h1, h2, if_pos h3, h4]
  · intro e h1 h2 h3 h4
    rw [rip, h1, h2, hbr h3, h4]
  · intro rs e h1 h2 h3 h4 h5
    rw [rip, h1, h2, hbr h3, h4, h5]
  · intro rs e h1 h2 h3 h4 h5 h6
    rw [rip, h1, h2, hbr h3, h4, h5, h6]

/-- Witness for the amended error propagation claim: a prepare failure is
returned normally with the sink closed, and a commit-metadata failure
ends in a panic with the sink closed but no error return. -/
theorem rip_error_propagation_amended_witness :
    rip { fixtureEnv with prepareErr := some "prepare failed" } none =
      ([Event.close], Outcome.err "prepare failed") ∧
    rip { fixtureEnv with commitInfoErr := some "meta failed" } none =
      ([Event.close], Outcome.panicked "meta failed") := by
  constructor
  · exact (rip_error_propagation_amended
      { fixtureEnv with prepareErr := some "prepare failed" } none).1
      "prepare failed" rfl
  · exact (rip_error_propagation_amended
      { fixtureEnv with commitInfoErr := some "meta failed" } none).2.2.2.1
      "meta failed" rfl rfl (fun _ => rfl) rfl

/-- Every subdirectory processed with zero remaining recursion levels is
kept exactly when it passes the repository test. -/
theorem runOnDirs_zero (d : Dir) :
    runOnDirs d 0 = if isRepoDir d then [d] else [] := by
  rw [runOnDirs, isRepoDir]
  cases h1 : d.hasDotGitDir with
  | true => simp [h1]
  | false =>
    cases h2 : d.extIsGit && d.hasObjectsDir with
    | true => simp [h1, h2]
    | false => simp [h1, h2]

/-- Flattening the zero-level visits of a list of directories keeps
exactly the repositories among them, in order. -/
theorem flatten_runOnDirs_zero (l : List Dir) :
    (l.map (fun s => runOnDirs s 0)).flatten = l.filter isRepoDir := by
  induction l with
  | nil => rfl
  | cons hd tl ih =>
    rw [List.map_cons, List.flatten_cons, runOnDirs_zero, ih]
    cases h : isRepoDir hd with
    | true => rw [if_pos rfl, List.filter_cons_of_pos h, List.singleton_append]
    | false => rw [if_neg (by simp), List.filter_cons_of_neg (by simp [h]),
        List.nil_append]

/-- C9: discovery entered with one recursion level processes the given
directory as a repository exactly when it has a .git subdirectory or its
name ends in .git and it has an objects subdirectory; otherwise it
processes exactly the immediate subdirectories passing the same test, and
recurses no further. -/
theorem runOnDirs_discovery (d : Dir) :
    runOnDirs d 1 =
      if d.hasDotGitDir || (d.extIsGit && d.hasObjectsDir) then [d]
      else d.subdirs.filter isRepoDir := by
  rw [runOnDirs]
  cases h1 : d.hasDotGitDir with
  | true => simp [h1]
  | false =>
    cases h2 : d.extIsGit && d.hasObjectsDir with
    | true => simp [h1, h2]
    | false =>
      simp only [h1, h2, Bool.false_or, if_neg, if_false]
      exact flatten_runOnDirs_zero d.subdirs

/-- C1: on an error-free run, for every engine result of the stream and
every file the result lists, exactly one record with that sha and that
filename is delivered to the sink, and when the file is Removed the
delivered record carries an empty lines list. -/
theorem rip_emits_exactly_once_per_file (env : Env) (opts? : Option RipOpts)
    (pc : ProcResult) (f : ProcFile)
    (hc : cleanEnv env) (hnd : (env.stream.map ProcResult.Commit).Nodup)
    (hpc : pc ∈ env.stream) (hfn : (pc.Files.map ProcFile.Filename).Nodup)
    (hf : f ∈ pc.Files) :
    (sinkResults env opts?).countP
      (fun r => r.Commit.SHA == pc.Commit && r.Filename == f.Filename) = 1 ∧
    (f.Status = CommitStatus.removed → ∀ r ∈ sinkResults env opts?,
      r.Commit.SHA = pc.Commit → r.Filename = f.Filename → r.Lines = []) := by
  constructor
  · rw [sinkResults_clean env opts? hc, List.countP_eq_length_filter]
    have hsplit : (env.stream.flatMap (codeInfoFiles env (opts?.getD {}))).filter
        (fun r => r.Commit.SHA == pc.Commit && r.Filename == f.Filename) =
        ((env.stream.flatMap (codeInfoFiles env (opts?.getD {}))).filter
          (fun r => r.Commit.SHA == pc.Commit)).filter
          (fun r => r.Filename == f.Filename) := by
      rw [List.filter_filter]
      apply List.filter_congr
      intro r _
      rw [Bool.and_comm]
    rw [hsplit, filter_sha_flatMap env (opts?.getD {}) env.stream pc hnd hpc,
      codeInfoFiles,
      filter_filename_emit (decoratedCommit env (opts?.getD {}) pc.Commit)
        pc.Files f hfn hf]
    rfl
  · intro hrm r hr hsha hname
    obtain ⟨pc2, hpc2, hr2⟩ := mem_sinkResults env opts? r hr
    have hsha2 := codeInfoFiles_sha env (opts?.getD {}) pc2 r hr2
    have hpceq : pc2 = pc :=
      List.inj_on_of_nodup_map hnd hpc2 hpc (by rw [← hsha2, hsha])
    rw [hpceq] at hr2
    obtain ⟨-, f2, hf2, rfl⟩ := mem_codeInfoFiles env (opts?.getD {}) pc r hr2
    have hname2 : f2.Filename = f.Filename := hname
    have hfeq : f2 = f := List.inj_on_of_nodup_map hfn hf2 hf hname2
    rw [hfeq]
    simp [emitFile, hrm]

/-- Witness for the exactly-once emission claim, instantiated on the root
commit and its single file in the multiple-branches fixture. -/
theorem rip_emits_exactly_once_per_file_witness :
    (sinkResults fixtureEnv none).countP
      (fun r => r.Commit.SHA == shaRoot && r.Filename == "a.txt") = 1 :=
  (rip_emits_exactly_once_per_file fixtureEnv none
    { Commit := shaRoot, Files := [fileA] } fileA
    ⟨rfl, rfl, rfl, rfl, rfl, rfl, fun _ => rfl⟩
    (by decide) (by decide) (by decide) (by decide)).1

/-- Every record of the decorated stream of pairwise distinct results with
per-result distinct file names carries a pair of sha and filename no other
record carries. -/
theorem pairwise_flatMap_distinct (env : Env) (opts : RipOpts)
    (stream : List ProcResult)
    (hnd : (stream.map ProcResult.Commit).Nodup)
    (hfn : ∀ pc ∈ stream, (pc.Files.map ProcFile.Filename).Nodup) :
    (stream.flatMap (codeInfoFiles env opts)).Pairwise
      (fun r1 r2 => ¬ (r1.Commit.SHA = r2.Commit.SHA ∧
        r1.Filename = r2.Filename)) := by
  induction stream with
  | nil => simp
  | cons hd tl ih =>
    rw [List.flatMap_cons]
    rw [List.map_cons, List.nodup_cons] at hnd
    apply List.pairwise_append.mpr
    refine ⟨?_, ih hnd.2 (fun pc hpc => hfn pc (List.mem_cons_of_mem hd hpc)), ?_⟩
    · have hfl := hfn hd (List.mem_cons_self hd tl)
      rw [codeInfoFiles]
      apply List.pairwise_map.mpr
      have hp2 := List.pairwise_map.mp hfl
      apply hp2.imp
      intro f1 f2 hne hcon
      exact hne hcon.2
    · intro r1 h1 r2 h2 hcon
      have s1 := codeInfoFiles_sha env opts hd r1 h1
      obtain ⟨pc2, hpc2, hr2⟩ := List.mem_flatMap.mp h2
      have s2 := codeInfoFiles_sha env opts pc2 r2 hr2
      apply hnd.1
      rw [show hd.Commit = pc2.Commit by rw [← s1, ← s2]; exact hcon.1]
      exact List.mem_map_of_mem ProcResult.Commit hpc2

/-- C8: on an error-free run with pairwise distinct stream shas and
per-result distinct file names, no two records delivered to the sink share
the same pair of commit sha and filename. -/
theorem rip_no_duplicate_emission (env : Env) (opts? : Option RipOpts)
    (hc : cleanEnv env) (hnd : (env.stream.map ProcResult.Commit).Nodup)
    (hfn : ∀ pc ∈ env.stream, (pc.Files.map ProcFile.Filename).Nodup) :
    (sinkResults env opts?).Pairwise
      (fun r1 r2 => ¬ (r1.Commit.SHA = r2.Commit.SHA ∧
        r1.Filename = r2.Filename)) := by
  rw [sinkResults_clean env opts? hc]
  exact pairwise_flatMap_distinct env (opts?.getD {}) env.stream hnd hfn

/-- Witness for the no-duplicate-pair claim on the fixture run. -/
theorem rip_no_duplicate_emission_witness :
    (sinkResults fixtureEnv none).Pairwise
      (fun r1 r2 => ¬ (r1.Commit.SHA = r2.Commit.SHA ∧
        r1.Filename = r2.Filename)) :=
  rip_no_duplicate_emission fixtureEnv none
    ⟨rfl, rfl, rfl, rfl, rfl, rfl, fun _ => rfl⟩ (by decide) (by decide)

/-- C5: on an error-free run whose stream shas are pairwise distinct and
form a topological order of the parents graph, the sha sequence delivered
to the sink, with consecutive duplicates compressed, lists exactly the
stream results that touch at least one file, in stream order, hence is
itself a topological order; and within one commit the files are delivered
exactly in the order the result lists them, preserved through the
decoration stage. -/
theorem rip_emission_order (env : Env) (opts? : Option RipOpts)
    (hc : cleanEnv env) (hnd : (env.stream.map ProcResult.Commit).Nodup)
    (htopo : (env.stream.map ProcResult.Commit).Pairwise
      (fun a b => reaches env.graph env.graph.length a b = false)) :
    dedupConsec ((sinkResults env opts?).map (fun r => r.Commit.SHA)) =
      (env.stream.filter (fun pc => !pc.Files.isEmpty)).map ProcResult.Commit ∧
    (dedupConsec ((sinkResults env opts?).map (fun r => r.Commit.SHA))).Pairwise
      (fun a b => reaches env.graph env.graph.length a b = false) ∧
    (∀ pc ∈ env.stream,
      ((sinkResults env opts?).filter (fun r => r.Commit.SHA == pc.Commit)).map
        (fun r => r.Filename) = pc.Files.map ProcFile.Filename) := by
  have hsink := sinkResults_clean env opts? hc
  have h1 : dedupConsec ((sinkResults env opts?).map (fun r => r.Commit.SHA)) =
      (env.stream.filter (fun pc => !pc.Files.isEmpty)).map ProcResult.Commit := by
    rw [hsink]
    exact dedup_shas env (opts?.getD {}) env.stream hnd
  refine ⟨h1, ?_, ?_⟩
  · rw [h1]
    exact htopo.sublist ((List.filter_sublist env.stream).map ProcResult.Commit)
  · intro pc hpc
    rw [hsink, filter_sha_flatMap env (opts?.getD {}) env.stream pc hnd hpc,
      codeInfoFiles, List.map_map]
    have hcomp : ((fun r : BlameResult => r.Filename) ∘
        emitFile (decoratedCommit env (opts?.getD {}) pc.Commit)) =
        ProcFile.Filename := by
      funext f2
      rfl
    rw [hcomp]

/-- Witness for the emission order claim on the fixture run: the
compressed sha sequence is the full fixture stream since every commit
touches a file. -/
theorem rip_emission_order_witness :
    dedupConsec ((sinkResults fixtureEnv none).map (fun r => r.Commit.SHA)) =
      (fixtureStream.filter (fun pc => !pc.Files.isEmpty)).map ProcResult.Commit :=
  (rip_emission_order fixtureEnv none
    ⟨rfl, rfl, rfl, rfl, rfl, rfl, fun _ => rfl⟩ (by decide) (by decide)).1

end Ripsrc
